import Mathlib

/-!
Shallow embedding of the Volume Profile core of src/app.py.

The embedding uses exact rational arithmetic for the float computations.
The numpy call np.histogram(close, bins=120, weights=vol) is embedded
faithfully: the range is the min/max of the Close column (widened by 1/2
on each side when they coincide, which is the numpy degenerate-range
rule), there are 120 equal-width bins (121 edges), interior bins are
half-open and the last bin is closed.  The while loop of the value-area
expansion is embedded with explicit fuel; the termination theorem for
claim C5 shows that fuel equal to the number of bins reaches the fixed
point of the loop, so the fueled function agrees with the loop.
-/

/-- One OHLCV candle, a row of the dataframe of src/app.py.  The
timestamp index is omitted: no computation of the core reads it. -/
structure Candle where
  Open : ℚ
  High : ℚ
  Low : ℚ
  Close : ℚ
  Volume : ℚ
deriving DecidableEq

/-- Minimum of a list of rationals; 0 on the empty list (never used on
an empty list by the code below). -/
def listMin : List ℚ → ℚ
  | [] => 0
  | x :: xs => xs.foldl min x

/-- Maximum of a list of rationals; 0 on the empty list. -/
def listMax : List ℚ → ℚ
  | [] => 0
  | x :: xs => xs.foldl max x

/-- Lower edge of the numpy histogram range over the Close column:
min(Close), moved down by 1/2 when all closes coincide (numpy
degenerate-range rule). -/
def histLo (df : List Candle) : ℚ :=
  if listMin (df.map Candle.Close) = listMax (df.map Candle.Close) then
    listMin (df.map Candle.Close) - 1/2
  else listMin (df.map Candle.Close)

/-- Upper edge of the numpy histogram range over the Close column. -/
def histHi (df : List Candle) : ℚ :=
  if listMin (df.map Candle.Close) = listMax (df.map Candle.Close) then
    listMax (df.map Candle.Close) + 1/2
  else listMax (df.map Candle.Close)

/-- Common width of the 120 histogram bins. -/
def histW (df : List Candle) : ℚ := (histHi df - histLo df) / 120

/-- Index of the bin that receives a value x: floor division by the bin
width, clamped to the last bin (numpy puts values equal to the top edge
into the last, closed, bin).  Only applied to Close values, which lie
inside the range. -/
def binIdx (df : List Candle) (x : ℚ) : ℕ :=
  min (⌊(x - histLo df) / histW df⌋).toNat 119

/-- The weighted histogram hist of np.histogram(close, bins=120,
weights=vol): bin j accumulates the entire Volume of every candle whose
Close falls in bin j. -/
def histCounts (df : List Candle) : List ℚ :=
  (List.range 120).map fun j =>
    ((df.filter fun c => decide (binIdx df c.Close = j)).map Candle.Volume).sum

/-- The 121 bin edges bins of np.histogram. -/
def binsList (df : List Candle) : List ℚ :=
  (List.range 121).map fun j : ℕ => histLo df + (j : ℚ) * histW df

/-- Scan for numpy argmax: first index holding the maximum.  The
accumulator best is the best index so far and bv its value; i is the
index of the head of the remaining list. -/
def argmaxAux : List ℚ → ℕ → ℕ → ℚ → ℕ
  | [], _, best, _ => best
  | x :: xs, i, best, bv =>
    if bv < x then argmaxAux xs (i + 1) i x else argmaxAux xs (i + 1) best bv

/-- Embedding of hist.argmax(): first index of the maximum entry. -/
def argmaxIdx : List ℚ → ℕ
  | [] => 0
  | x :: xs => argmaxAux xs 1 0 x

/-- State of the value-area expansion loop: the two cursors up and down
and the accumulated volume curr. -/
structure VAState where
  up : ℕ
  down : ℕ
  curr : ℚ
deriving DecidableEq

/-- Candidate volume above the cursor: hist[up+1] if up+1 is in range,
else the sentinel -1 (line 139 of src/app.py).  The parameter dflt is
the value List.getD would return out of bounds; the guard makes it
unreachable, which claim C5 proves. -/
def candUp (dflt : ℚ) (hist : List ℚ) (s : VAState) : ℚ :=
  if s.up < hist.length - 1 then hist.getD (s.up + 1) dflt else -1

/-- Candidate volume below the cursor: hist[down-1] if down > 0, else
the sentinel -1 (line 140 of src/app.py). -/
def candDown (dflt : ℚ) (hist : List ℚ) (s : VAState) : ℚ :=
  if 0 < s.down then hist.getD (s.down - 1) dflt else -1

/-- One advancing step of the expansion loop (lines 142-147 of
src/app.py): if v_up >= v_down move up, else move down, adding the
entered volume. -/
def vaStepD (dflt : ℚ) (hist : List ℚ) (s : VAState) : VAState :=
  if candDown dflt hist s ≤ candUp dflt hist s then
    ⟨s.up + 1, s.down, s.curr + candUp dflt hist s⟩
  else
    ⟨s.up, s.down - 1, s.curr + candDown dflt hist s⟩

/-- The expansion step with out-of-bounds default 0. -/
def vaStep (hist : List ℚ) (s : VAState) : VAState := vaStepD 0 hist s

/-- The while loop of lines 134-147 of src/app.py, with explicit fuel:
while curr < target, break if neither side can advance, else take one
vaStepD step. -/
def expandVAD (dflt : ℚ) (hist : List ℚ) (target : ℚ) : ℕ → VAState → VAState
  | 0, s => s
  | fuel + 1, s =>
    if s.curr < target then
      if s.up < hist.length - 1 ∨ 0 < s.down then
        expandVAD dflt hist target fuel (vaStepD dflt hist s)
      else s
    else s

/-- The expansion loop with out-of-bounds default 0. -/
def expandVA (hist : List ℚ) (target : ℚ) (fuel : ℕ) (s : VAState) : VAState :=
  expandVAD 0 hist target fuel s

/-- Final loop state of calculate_vp: the expansion run on the
histogram of the window, started with both cursors on the argmax bin
and curr = hist[max_idx], with target = hist.sum() * va_pct.  Fuel is
the number of bins, which claim C5 proves sufficient. -/
def vpState (df : List Candle) (va_pct : ℚ) : VAState :=
  expandVA (histCounts df) ((histCounts df).sum * va_pct) (histCounts df).length
    ⟨argmaxIdx (histCounts df), argmaxIdx (histCounts df),
      (histCounts df).getD (argmaxIdx (histCounts df)) 0⟩

/-- The vp_data dictionary returned by calculate_vp: price holds
bins[:-1], volume holds hist. -/
structure VPData where
  price : List ℚ
  volume : List ℚ
deriving DecidableEq

/-- Embedding of calculate_vp (lines 117-156 of src/app.py).  On an
empty window it returns the sentinel (None, 0, 0, 0); otherwise it
returns (vp_data, bins[max_idx], bins[up], bins[down]), the components
named (vp_data, poc, vah, val) at the call site.  The try/except of the
source never fires in exact arithmetic, so the non-empty branch is the
try block. -/
def calculate_vp : List Candle → ℚ → Option VPData × ℚ × ℚ × ℚ
  | [], _ => (none, 0, 0, 0)
  | d :: tl, va_pct =>
    (some ⟨(binsList (d :: tl)).take 120, histCounts (d :: tl)⟩,
      (binsList (d :: tl)).getD (argmaxIdx (histCounts (d :: tl))) 0,
      (binsList (d :: tl)).getD (vpState (d :: tl) va_pct).up 0,
      (binsList (d :: tl)).getD (vpState (d :: tl) va_pct).down 0)

/-- The three signal kinds of the main script. -/
inductive SignalKind
  | LONG
  | SHORT
  | WAIT
deriving DecidableEq

/-- The signal decision of lines 178-191 of src/app.py applied to the
last candle: the result is (kind, stop_loss, take_profit), with
stop_loss and take_profit None unless a signal fires.  LONG is the
first branch; SHORT is only reached through the elif. -/
def signalOf (last : Candle) (vah val rr : ℚ) : SignalKind × Option ℚ × Option ℚ :=
  if last.Low < val ∧ val < last.Close then
    (.LONG, some last.Low, some (last.Close + (last.Close - last.Low) * rr))
  else if vah < last.High ∧ last.Close < vah then
    (.SHORT, some last.High, some (last.Close - (last.High - last.Close) * rr))
  else (.WAIT, none, none)

/-- The main flow of lines 170-191 of src/app.py: on an empty window no
signal is computed; otherwise calculate_vp runs, and only when vp_data
is not the None sentinel is the signal logic evaluated on the last
candle. -/
def runSignal : List Candle → ℚ → ℚ → SignalKind × Option ℚ × Option ℚ
  | [], _, _ => (.WAIT, none, none)
  | d :: tl, va, rr =>
    match calculate_vp (d :: tl) va with
    | (some _, _, vah, val) =>
      signalOf ((d :: tl).getLast (List.cons_ne_nil d tl)) vah val rr
    | (none, _, _, _) => (.WAIT, none, none)

/-- The last row of the window, df.iloc[-1] in src/app.py. -/
def lastCandle (d : Candle) (tl : List Candle) : Candle :=
  (d :: tl).getLast (List.cons_ne_nil d tl)

/-- The poc component of the calculate_vp result, as unpacked at its
call site (line 172 of src/app.py). -/
def pocOf (df : List Candle) (va : ℚ) : ℚ := (calculate_vp df va).2.1

/-- The vah component of the calculate_vp result. -/
def vahOf (df : List Candle) (va : ℚ) : ℚ := (calculate_vp df va).2.2.1

/-- The val component of the calculate_vp result. -/
def valOf (df : List Candle) (va : ℚ) : ℚ := (calculate_vp df va).2.2.2

/-- Price floor as the words of the specification have it, for the
refinement comparison of claim C2: min(Low) over the whole window. -/
def spec_price_min (df : List Candle) : ℚ := listMin (df.map Candle.Low)

/-- Price ceiling as the words of the specification have it, for the
refinement comparison of claim C2: max(High) over the whole window. -/
def spec_price_max (df : List Candle) : ℚ := listMax (df.map Candle.High)

/-! Basic lemmas about the list helpers. -/

theorem getD_map_range (n : ℕ) (f : ℕ → ℚ) (j : ℕ) (h : j < n) :
    ((List.range n).map f).getD j 0 = f j := by
  have hl : j < ((List.range n).map f).length := by simpa using h
  rw [List.getD_eq_getElem _ _ hl, List.getElem_map, List.getElem_range]

theorem foldl_min_le_init (xs : List ℚ) : ∀ a : ℚ, xs.foldl min a ≤ a := by
  induction xs with
  | nil => intro a; simp
  | cons x xs ih =>
    intro a
    simpa using le_trans (ih (min a x)) (min_le_left a x)

theorem foldl_min_le_mem (xs : List ℚ) : ∀ a b : ℚ, b ∈ xs → xs.foldl min a ≤ b := by
  induction xs with
  | nil => intro a b hb; cases hb
  | cons x xs ih =>
    intro a b hb
    rcases List.mem_cons.mp hb with rfl | hb
    · simpa using le_trans (foldl_min_le_init xs (min a b)) (min_le_right a b)
    · simpa using ih (min a x) b hb

theorem init_le_foldl_max (xs : List ℚ) : ∀ a : ℚ, a ≤ xs.foldl max a := by
  induction xs with
  | nil => intro a; simp
  | cons x xs ih =>
    intro a
    simpa using le_trans (le_max_left a x) (ih (max a x))

theorem mem_le_foldl_max (xs : List ℚ) : ∀ a b : ℚ, b ∈ xs → b ≤ xs.foldl max a := by
  induction xs with
  | nil => intro a b hb; cases hb
  | cons x xs ih =>
    intro a b hb
    rcases List.mem_cons.mp hb with rfl | hb
    · simpa using le_trans (le_max_right a b) (init_le_foldl_max xs (max a b))
    · simpa using ih (max a x) b hb

theorem listMin_le (l : List ℚ) (b : ℚ) (hb : b ∈ l) : listMin l ≤ b := by
  match l with
  | x :: xs =>
    show xs.foldl min x ≤ b
    rcases List.mem_cons.mp hb with rfl | hb
    · exact foldl_min_le_init xs b
    · exact foldl_min_le_mem xs x b hb

theorem le_listMax (l : List ℚ) (b : ℚ) (hb : b ∈ l) : b ≤ listMax l := by
  match l with
  | x :: xs =>
    show b ≤ xs.foldl max x
    rcases List.mem_cons.mp hb with rfl | hb
    · exact init_le_foldl_max xs b
    · exact mem_le_foldl_max xs x b hb

theorem listMin_le_listMax (x : ℚ) (xs : List ℚ) : listMin (x :: xs) ≤ listMax (x :: xs) :=
  le_trans (listMin_le _ x (by simp)) (le_listMax _ x (by simp))

/-! Lemmas about the histogram geometry. -/

theorem histLo_le_listMin (df : List Candle) :
    histLo df ≤ listMin (df.map Candle.Close) := by
  unfold histLo
  split
  · linarith
  · exact le_refl _

theorem listMax_le_histHi (df : List Candle) :
    listMax (df.map Candle.Close) ≤ histHi df := by
  unfold histHi
  split
  · linarith
  · exact le_refl _

theorem close_bounds (df : List Candle) (c : Candle) (hc : c ∈ df) :
    histLo df ≤ c.Close ∧ c.Close ≤ histHi df := by
  have h1 : listMin (df.map Candle.Close) ≤ c.Close :=
    listMin_le _ _ (List.mem_map_of_mem Candle.Close hc)
  have h2 : c.Close ≤ listMax (df.map Candle.Close) :=
    le_listMax _ _ (List.mem_map_of_mem Candle.Close hc)
  exact ⟨le_trans (histLo_le_listMin df) h1, le_trans h2 (listMax_le_histHi df)⟩

theorem histHi_sub_histLo_pos (d : Candle) (tl : List Candle) :
    0 < histHi (d :: tl) - histLo (d :: tl) := by
  by_cases h :
      listMin ((d :: tl).map Candle.Close) = listMax ((d :: tl).map Candle.Close)
  · simp only [histLo, histHi, if_pos h]
    linarith
  · simp only [histLo, histHi, if_neg h]
    have hle : listMin ((d :: tl).map Candle.Close) ≤ listMax ((d :: tl).map Candle.Close) := by
      rw [List.map_cons]
      exact listMin_le_listMax _ _
    have := lt_of_le_of_ne hle h
    linarith

theorem histW_pos (d : Candle) (tl : List Candle) : 0 < histW (d :: tl) := by
  unfold histW
  exact div_pos (histHi_sub_histLo_pos d tl) (by norm_num)

theorem histCounts_length (df : List Candle) : (histCounts df).length = 120 := by
  simp [histCounts]

theorem histCounts_getD (df : List Candle) (j : ℕ) (hj : j < 120) :
    (histCounts df).getD j 0 =
      ((df.filter fun c => decide (binIdx df c.Close = j)).map Candle.Volume).sum := by
  unfold histCounts
  exact getD_map_range 120 _ j hj

theorem binsList_getD (df : List Candle) (j : ℕ) (hj : j < 121) :
    (binsList df).getD j 0 = histLo df + (j : ℚ) * histW df := by
  unfold binsList
  exact getD_map_range 121 _ j hj

theorem histCounts_nonneg (df : List Candle) (h : ∀ c ∈ df, 0 ≤ c.Volume) :
    ∀ v ∈ histCounts df, 0 ≤ v := by
  intro v hv
  simp only [histCounts, List.mem_map] at hv
  obtain ⟨j, _, rfl⟩ := hv
  apply List.sum_nonneg
  intro x hx
  simp only [List.mem_map] at hx
  obtain ⟨c, hc, rfl⟩ := hx
  exact h c (List.mem_of_mem_filter hc)

theorem binIdx_lt (df : List Candle) (x : ℚ) : binIdx df x < 120 := by
  unfold binIdx
  omega

/-! Lemmas about argmax. -/

theorem argmaxAux_lt (xs : List ℚ) :
    ∀ (i best : ℕ) (bv : ℚ), argmaxAux xs i best bv < max (best + 1) (i + xs.length) := by
  induction xs with
  | nil =>
    intro i best bv
    simp [argmaxAux]
  | cons x xs ih =>
    intro i best bv
    simp only [argmaxAux, List.length_cons]
    by_cases h : bv < x
    · have := ih (i + 1) i x
      simp only [if_pos h]
      omega
    · have := ih (i + 1) best bv
      simp only [if_neg h]
      omega

theorem argmaxIdx_lt (l : List ℚ) (h : 0 < l.length) : argmaxIdx l < l.length := by
  match l with
  | x :: xs =>
    have := argmaxAux_lt xs 1 0 x
    simp only [argmaxIdx, List.length_cons]
    omega

/-! Lemmas about the value-area expansion loop. -/

theorem getD_nonneg (l : List ℚ) (i : ℕ) (dflt : ℚ)
    (hv : ∀ v ∈ l, 0 ≤ v) (hd : 0 ≤ dflt) : 0 ≤ l.getD i dflt := by
  rcases Nat.lt_or_ge i l.length with h | h
  · rw [List.getD_eq_getElem _ _ h]
    exact hv _ (List.getElem_mem h)
  · rw [List.getD_eq_default _ _ h]
    exact hd

theorem getD_congr (l : List ℚ) (i : ℕ) (d₁ d₂ : ℚ) (h : i < l.length) :
    l.getD i d₁ = l.getD i d₂ := by
  rw [List.getD_eq_getElem _ _ h, List.getD_eq_getElem _ _ h]

theorem candUp_ge (dflt : ℚ) (hist : List ℚ) (s : VAState)
    (hv : ∀ v ∈ hist, 0 ≤ v) (hd : 0 ≤ dflt) : -1 ≤ candUp dflt hist s := by
  unfold candUp
  split
  · linarith [getD_nonneg hist (s.up + 1) dflt hv hd]
  · exact le_refl _

theorem candDown_nonneg (dflt : ℚ) (hist : List ℚ) (s : VAState)
    (hv : ∀ v ∈ hist, 0 ≤ v) (hd : 0 ≤ dflt) (h : 0 < s.down) :
    0 ≤ candDown dflt hist s := by
  unfold candDown
  rw [if_pos h]
  exact getD_nonneg hist (s.down - 1) dflt hv hd

theorem vaStepD_up_ge (dflt : ℚ) (hist : List ℚ) (s : VAState) :
    s.up ≤ (vaStepD dflt hist s).up := by
  unfold vaStepD
  split
  · exact Nat.le_succ _
  · exact le_refl _

theorem vaStepD_down_le (dflt : ℚ) (hist : List ℚ) (s : VAState) :
    (vaStepD dflt hist s).down ≤ s.down := by
  unfold vaStepD
  split
  · exact le_refl _
  · exact Nat.sub_le _ _

theorem vaStepD_cases (dflt : ℚ) (hist : List ℚ) (s : VAState)
    (hv : ∀ v ∈ hist, 0 ≤ v) (hd : 0 ≤ dflt)
    (hstep : s.up < hist.length - 1 ∨ 0 < s.down) :
    (s.up < hist.length - 1 ∧
      vaStepD dflt hist s = ⟨s.up + 1, s.down, s.curr + candUp dflt hist s⟩) ∨
    (0 < s.down ∧
      vaStepD dflt hist s = ⟨s.up, s.down - 1, s.curr + candDown dflt hist s⟩) := by
  unfold vaStepD
  split
  · rename_i hle
    left
    refine ⟨?_, rfl⟩
    by_contra hu
    have hdown : 0 < s.down := hstep.resolve_left hu
    have h1 : candUp dflt hist s = -1 := by unfold candUp; rw [if_neg hu]
    have h2 : 0 ≤ candDown dflt hist s := candDown_nonneg dflt hist s hv hd hdown
    rw [h1] at hle
    linarith
  · rename_i hlt
    right
    refine ⟨?_, rfl⟩
    by_contra hdn
    have h1 : candDown dflt hist s = -1 := by unfold candDown; rw [if_neg hdn]
    have h2 : -1 ≤ candUp dflt hist s := candUp_ge dflt hist s hv hd
    exact hlt (by rw [h1]; exact h2)

theorem vaStepD_invariant (dflt : ℚ) (hist : List ℚ) (s : VAState)
    (hv : ∀ v ∈ hist, 0 ≤ v) (hd : 0 ≤ dflt)
    (hup : s.up ≤ hist.length - 1)
    (hstep : s.up < hist.length - 1 ∨ 0 < s.down) :
    (vaStepD dflt hist s).up ≤ hist.length - 1 ∧
      (hist.length - 1 - (vaStepD dflt hist s).up) + (vaStepD dflt hist s).down + 1 =
        (hist.length - 1 - s.up) + s.down := by
  rcases vaStepD_cases dflt hist s hv hd hstep with ⟨h1, h2⟩ | ⟨h1, h2⟩ <;>
    rw [h2] <;> dsimp only <;> omega

theorem expandVAD_succ_step (dflt : ℚ) (hist : List ℚ) (t : ℚ) (n : ℕ) (s : VAState)
    (hc : s.curr < t) (hg : s.up < hist.length - 1 ∨ 0 < s.down) :
    expandVAD dflt hist t (n + 1) s = expandVAD dflt hist t n (vaStepD dflt hist s) := by
  rw [expandVAD, if_pos hc, if_pos hg]

theorem expandVAD_succ_break (dflt : ℚ) (hist : List ℚ) (t : ℚ) (n : ℕ) (s : VAState)
    (hc : s.curr < t) (hg : ¬(s.up < hist.length - 1 ∨ 0 < s.down)) :
    expandVAD dflt hist t (n + 1) s = s := by
  rw [expandVAD, if_pos hc, if_neg hg]

theorem expandVAD_succ_done (dflt : ℚ) (hist : List ℚ) (t : ℚ) (n : ℕ) (s : VAState)
    (hc : ¬ s.curr < t) :
    expandVAD dflt hist t (n + 1) s = s := by
  rw [expandVAD, if_neg hc]

theorem expandVAD_up_ge (dflt : ℚ) (hist : List ℚ) (t : ℚ) :
    ∀ (fuel : ℕ) (s : VAState), s.up ≤ (expandVAD dflt hist t fuel s).up := by
  intro fuel
  induction fuel with
  | zero => intro s; exact le_refl _
  | succ n ih =>
    intro s
    by_cases hc : s.curr < t
    · by_cases hg : s.up < hist.length - 1 ∨ 0 < s.down
      · rw [expandVAD_succ_step dflt hist t n s hc hg]
        exact le_trans (vaStepD_up_ge dflt hist s) (ih _)
      · rw [expandVAD_succ_break dflt hist t n s hc hg]
    · rw [expandVAD_succ_done dflt hist t n s hc]

theorem expandVAD_down_le (dflt : ℚ) (hist : List ℚ) (t : ℚ) :
    ∀ (fuel : ℕ) (s : VAState), (expandVAD dflt hist t fuel s).down ≤ s.down := by
  intro fuel
  induction fuel with
  | zero => intro s; exact le_refl _
  | succ n ih =>
    intro s
    by_cases hc : s.curr < t
    · by_cases hg : s.up < hist.length - 1 ∨ 0 < s.down
      · rw [expandVAD_succ_step dflt hist t n s hc hg]
        exact le_trans (ih _) (vaStepD_down_le dflt hist s)
      · rw [expandVAD_succ_break dflt hist t n s hc hg]
    · rw [expandVAD_succ_done dflt hist t n s hc]

theorem expandVAD_up_le (dflt : ℚ) (hist : List ℚ) (t : ℚ)
    (hv : ∀ v ∈ hist, 0 ≤ v) (hd : 0 ≤ dflt) :
    ∀ (fuel : ℕ) (s : VAState), s.up ≤ hist.length - 1 →
      (expandVAD dflt hist t fuel s).up ≤ hist.length - 1 := by
  intro fuel
  induction fuel with
  | zero => intro s hup; exact hup
  | succ n ih =>
    intro s hup
    by_cases hc : s.curr < t
    · by_cases hg : s.up < hist.length - 1 ∨ 0 < s.down
      · rw [expandVAD_succ_step dflt hist t n s hc hg]
        exact ih _ (vaStepD_invariant dflt hist s hv hd hup hg).1
      · rw [expandVAD_succ_break dflt hist t n s hc hg]
        exact hup
    · rw [expandVAD_succ_done dflt hist t n s hc]
      exact hup

theorem expandVAD_stable (dflt : ℚ) (hist : List ℚ) (t : ℚ)
    (hv : ∀ v ∈ hist, 0 ≤ v) (hd : 0 ≤ dflt) :
    ∀ (f₁ f₂ : ℕ) (s : VAState), s.up ≤ hist.length - 1 →
      (hist.length - 1 - s.up) + s.down < f₁ →
      (hist.length - 1 - s.up) + s.down < f₂ →
      expandVAD dflt hist t f₁ s = expandVAD dflt hist t f₂ s := by
  intro f₁
  induction f₁ with
  | zero => intro f₂ s hup h1 h2; omega
  | succ n ih =>
    intro f₂ s hup h1 h2
    match f₂ with
    | 0 => omega
    | m + 1 =>
      by_cases hc : s.curr < t
      · by_cases hg : s.up < hist.length - 1 ∨ 0 < s.down
        · rw [expandVAD_succ_step dflt hist t n s hc hg,
            expandVAD_succ_step dflt hist t m s hc hg]
          obtain ⟨hu2, hmu⟩ := vaStepD_invariant dflt hist s hv hd hup hg
          exact ih m (vaStepD dflt hist s) hu2 (by omega) (by omega)
        · rw [expandVAD_succ_break dflt hist t n s hc hg,
            expandVAD_succ_break dflt hist t m s hc hg]
      · rw [expandVAD_succ_done dflt hist t n s hc,
          expandVAD_succ_done dflt hist t m s hc]

theorem expandVAD_terminal (dflt : ℚ) (hist : List ℚ) (t : ℚ)
    (hv : ∀ v ∈ hist, 0 ≤ v) (hd : 0 ≤ dflt) :
    ∀ (fuel : ℕ) (s : VAState), s.up ≤ hist.length - 1 →
      (hist.length - 1 - s.up) + s.down < fuel →
      t ≤ (expandVAD dflt hist t fuel s).curr ∨
        (hist.length - 1 ≤ (expandVAD dflt hist t fuel s).up ∧
          (expandVAD dflt hist t fuel s).down = 0) := by
  intro fuel
  induction fuel with
  | zero => intro s hup hmu; omega
  | succ n ih =>
    intro s hup hmu
    by_cases hc : s.curr < t
    · by_cases hg : s.up < hist.length - 1 ∨ 0 < s.down
      · rw [expandVAD_succ_step dflt hist t n s hc hg]
        obtain ⟨hu2, hmu2⟩ := vaStepD_invariant dflt hist s hv hd hup hg
        exact ih (vaStepD dflt hist s) hu2 (by omega)
      · rw [expandVAD_succ_break dflt hist t n s hc hg]
        right
        push_neg at hg
        omega
    · rw [expandVAD_succ_done dflt hist t n s hc]
      left
      exact le_of_not_lt hc

theorem vaStepD_default (d₁ d₂ : ℚ) (hist : List ℚ) (s : VAState)
    (hdown : s.down < hist.length) : vaStepD d₁ hist s = vaStepD d₂ hist s := by
  have hu : candUp d₁ hist s = candUp d₂ hist s := by
    unfold candUp
    split
    · rename_i h
      exact getD_congr hist (s.up + 1) d₁ d₂ (by omega)
    · rfl
  have hdc : candDown d₁ hist s = candDown d₂ hist s := by
    unfold candDown
    split
    · rename_i h
      exact getD_congr hist (s.down - 1) d₁ d₂ (by omega)
    · rfl
  unfold vaStepD
  rw [hu, hdc]

theorem expandVAD_default (d₁ d₂ : ℚ) (hist : List ℚ) (t : ℚ) :
    ∀ (fuel : ℕ) (s : VAState), s.down < hist.length →
      expandVAD d₁ hist t fuel s = expandVAD d₂ hist t fuel s := by
  intro fuel
  induction fuel with
  | zero => intro s h; rfl
  | succ n ih =>
    intro s h
    by_cases hc : s.curr < t
    · by_cases hg : s.up < hist.length - 1 ∨ 0 < s.down
      · rw [expandVAD_succ_step d₁ hist t n s hc hg,
          expandVAD_succ_step d₂ hist t n s hc hg,
          vaStepD_default d₁ d₂ hist s h]
        apply ih
        have := vaStepD_down_le d₂ hist s
        omega
      · rw [expandVAD_succ_break d₁ hist t n s hc hg,
          expandVAD_succ_break d₂ hist t n s hc hg]
    · rw [expandVAD_succ_done d₁ hist t n s hc,
        expandVAD_succ_done d₂ hist t n s hc]

theorem expandVAD_target_mono (dflt : ℚ) (hist : List ℚ) (t₁ t₂ : ℚ) (ht : t₁ ≤ t₂) :
    ∀ (fuel : ℕ) (s : VAState),
      (expandVAD dflt hist t₁ fuel s).up ≤ (expandVAD dflt hist t₂ fuel s).up ∧
      (expandVAD dflt hist t₂ fuel s).down ≤ (expandVAD dflt hist t₁ fuel s).down := by
  intro fuel
  induction fuel with
  | zero => intro s; exact ⟨le_refl _, le_refl _⟩
  | succ n ih =>
    intro s
    by_cases hc1 : s.curr < t₁
    · have hc2 : s.curr < t₂ := lt_of_lt_of_le hc1 ht
      by_cases hg : s.up < hist.length - 1 ∨ 0 < s.down
      · rw [expandVAD_succ_step dflt hist t₁ n s hc1 hg,
          expandVAD_succ_step dflt hist t₂ n s hc2 hg]
        exact ih (vaStepD dflt hist s)
      · rw [expandVAD_succ_break dflt hist t₁ n s hc1 hg,
          expandVAD_succ_break dflt hist t₂ n s hc2 hg]
        exact ⟨le_refl _, le_refl _⟩
    · have h1 : expandVAD dflt hist t₁ (n + 1) s = s :=
        expandVAD_succ_done dflt hist t₁ n s hc1
      rw [h1]
      exact ⟨expandVAD_up_ge dflt hist t₂ (n + 1) s,
        expandVAD_down_le dflt hist t₂ (n + 1) s⟩

/-! Characterization of the bin that receives a value, and conservation. -/

theorem clampFloor_eq_iff (q : ℚ) (hq : 0 ≤ q) (j : ℕ) (hj : j < 120) :
    min (⌊q⌋).toNat 119 = j ↔ ((j : ℚ) ≤ q ∧ (q < (j : ℚ) + 1 ∨ j = 119)) := by
  have hf0 : 0 ≤ ⌊q⌋ := Int.floor_nonneg.mpr hq
  have htn : ((⌊q⌋).toNat : ℤ) = ⌊q⌋ := Int.toNat_of_nonneg hf0
  by_cases hj9 : j = 119
  · subst hj9
    constructor
    · intro h
      have h1 : (119 : ℕ) ≤ (⌊q⌋).toNat := by omega
      have h2 : (119 : ℤ) ≤ ⌊q⌋ := by omega
      have h3 : ((119 : ℤ) : ℚ) ≤ q := Int.le_floor.mp h2
      exact ⟨by exact_mod_cast h3, Or.inr rfl⟩
    · rintro ⟨h1, _⟩
      have h2 : ((119 : ℤ) : ℚ) ≤ q := by exact_mod_cast h1
      have h3 : (119 : ℤ) ≤ ⌊q⌋ := Int.le_floor.mpr h2
      omega
  · constructor
    · intro h
      have h1 : ⌊q⌋ = (j : ℤ) := by omega
      have h3 := Int.floor_eq_iff.mp h1
      refine ⟨by exact_mod_cast h3.1, Or.inl ?_⟩
      have := h3.2
      push_cast at this
      exact this
    · rintro ⟨h1, h2 | h2⟩
      · have h3 : ⌊q⌋ = (j : ℤ) := by
          rw [Int.floor_eq_iff]
          constructor
          · exact_mod_cast h1
          · push_cast
            exact h2
        omega
      · exact absurd h2 hj9

theorem binIdx_eq_iff (df : List Candle) (x : ℚ) (j : ℕ) (hj : j < 120)
    (hw : 0 < histW df) (hx1 : histLo df ≤ x) :
    binIdx df x = j ↔
      (histLo df + (j : ℚ) * histW df ≤ x ∧
        (x < histLo df + ((j : ℚ) + 1) * histW df ∨ j = 119)) := by
  have hq0 : 0 ≤ (x - histLo df) / histW df := div_nonneg (by linarith) hw.le
  have e1 : ((j : ℚ) ≤ (x - histLo df) / histW df) ↔
      (histLo df + (j : ℚ) * histW df ≤ x) := by
    rw [le_div_iff₀ hw]
    constructor <;> intro <;> linarith
  have e2 : ((x - histLo df) / histW df < (j : ℚ) + 1) ↔
      (x < histLo df + ((j : ℚ) + 1) * histW df) := by
    rw [div_lt_iff₀ hw]
    constructor <;> intro <;> linarith
  unfold binIdx
  rw [clampFloor_eq_iff _ hq0 j hj, e1, e2]

theorem sum_range_map (n : ℕ) (f : ℕ → ℚ) :
    ((List.range n).map f).sum = ∑ j ∈ Finset.range n, f j := by
  induction n with
  | zero => simp
  | succ n ih =>
    rw [List.range_succ, List.map_append, List.sum_append, Finset.sum_range_succ, ih]
    simp

theorem sum_fiber (l : List Candle) (f : Candle → ℕ) (n : ℕ) (hf : ∀ c ∈ l, f c < n) :
    (∑ j ∈ Finset.range n, ((l.filter fun c => decide (f c = j)).map Candle.Volume).sum) =
      (l.map Candle.Volume).sum := by
  induction l with
  | nil => simp
  | cons c tl ih =>
    have hc : f c < n := hf c (List.mem_cons_self c tl)
    have htl : ∀ x ∈ tl, f x < n := fun x hx => hf x (List.mem_cons_of_mem c hx)
    have hsum : ∀ j ∈ Finset.range n,
        (((c :: tl).filter fun x => decide (f x = j)).map Candle.Volume).sum =
          (if f c = j then c.Volume else 0) +
            ((tl.filter fun x => decide (f x = j)).map Candle.Volume).sum := by
      intro j _
      by_cases h : f c = j
      · simp [List.filter_cons, h]
      · simp [List.filter_cons, h]
    rw [Finset.sum_congr rfl hsum, Finset.sum_add_distrib]
    have hone : (∑ j ∈ Finset.range n, if f c = j then c.Volume else 0) = c.Volume := by
      rw [Finset.sum_ite_eq, if_pos (Finset.mem_range.mpr hc)]
    rw [hone, ih htl]
    simp

theorem histCounts_sum (df : List Candle) :
    (histCounts df).sum = (df.map Candle.Volume).sum := by
  unfold histCounts
  rw [sum_range_map]
  exact sum_fiber df (fun c => binIdx df c.Close) 120 fun c _ => binIdx_lt df c.Close

/-! Anatomy of calculate_vp on a non-empty window, and signal lemmas. -/

theorem calculate_vp_cons (d : Candle) (tl : List Candle) (va : ℚ) :
    calculate_vp (d :: tl) va =
      (some ⟨(binsList (d :: tl)).take 120, histCounts (d :: tl)⟩,
        (binsList (d :: tl)).getD (argmaxIdx (histCounts (d :: tl))) 0,
        (binsList (d :: tl)).getD (vpState (d :: tl) va).up 0,
        (binsList (d :: tl)).getD (vpState (d :: tl) va).down 0) := rfl

theorem argmaxIdx_histCounts_lt (df : List Candle) :
    argmaxIdx (histCounts df) < 120 := by
  have hlen : (histCounts df).length = 120 := histCounts_length df
  have := argmaxIdx_lt (histCounts df) (by omega)
  omega

theorem vpState_bounds (d : Candle) (tl : List Candle) (va : ℚ)
    (hv : ∀ c ∈ d :: tl, 0 ≤ c.Volume) :
    (vpState (d :: tl) va).down ≤ argmaxIdx (histCounts (d :: tl)) ∧
      argmaxIdx (histCounts (d :: tl)) ≤ (vpState (d :: tl) va).up ∧
      (vpState (d :: tl) va).up ≤ 119 := by
  have hlen : (histCounts (d :: tl)).length = 120 := histCounts_length _
  have hnn : ∀ v ∈ histCounts (d :: tl), 0 ≤ v := histCounts_nonneg _ hv
  have hm : argmaxIdx (histCounts (d :: tl)) < 120 := argmaxIdx_histCounts_lt _
  unfold vpState expandVA
  refine ⟨expandVAD_down_le 0 (histCounts (d :: tl)) ((histCounts (d :: tl)).sum * va)
      (histCounts (d :: tl)).length
      ⟨argmaxIdx (histCounts (d :: tl)), argmaxIdx (histCounts (d :: tl)),
        (histCounts (d :: tl)).getD (argmaxIdx (histCounts (d :: tl))) 0⟩,
    expandVAD_up_ge 0 (histCounts (d :: tl)) ((histCounts (d :: tl)).sum * va)
      (histCounts (d :: tl)).length
      ⟨argmaxIdx (histCounts (d :: tl)), argmaxIdx (histCounts (d :: tl)),
        (histCounts (d :: tl)).getD (argmaxIdx (histCounts (d :: tl))) 0⟩, ?_⟩
  have h := expandVAD_up_le 0 (histCounts (d :: tl)) ((histCounts (d :: tl)).sum * va)
    hnn (le_refl 0) (histCounts (d :: tl)).length
    ⟨argmaxIdx (histCounts (d :: tl)), argmaxIdx (histCounts (d :: tl)),
      (histCounts (d :: tl)).getD (argmaxIdx (histCounts (d :: tl))) 0⟩
    (by show argmaxIdx (histCounts (d :: tl)) ≤ (histCounts (d :: tl)).length - 1; omega)
  omega

theorem calculate_vp_levels (d : Candle) (tl : List Candle) (va : ℚ)
    (hv : ∀ c ∈ d :: tl, 0 ≤ c.Volume) :
    pocOf (d :: tl) va =
        histLo (d :: tl) + (argmaxIdx (histCounts (d :: tl)) : ℚ) * histW (d :: tl) ∧
      vahOf (d :: tl) va =
        histLo (d :: tl) + ((vpState (d :: tl) va).up : ℚ) * histW (d :: tl) ∧
      valOf (d :: tl) va =
        histLo (d :: tl) + ((vpState (d :: tl) va).down : ℚ) * histW (d :: tl) := by
  obtain ⟨h1, h2, h3⟩ := vpState_bounds d tl va hv
  have hm : argmaxIdx (histCounts (d :: tl)) < 120 := argmaxIdx_histCounts_lt _
  refine ⟨?_, ?_, ?_⟩
  · show (binsList (d :: tl)).getD (argmaxIdx (histCounts (d :: tl))) 0 = _
    exact binsList_getD _ _ (by omega)
  · show (binsList (d :: tl)).getD (vpState (d :: tl) va).up 0 = _
    exact binsList_getD _ _ (by omega)
  · show (binsList (d :: tl)).getD (vpState (d :: tl) va).down 0 = _
    exact binsList_getD _ _ (by omega)

theorem vpState_mono (d : Candle) (tl : List Candle) (f1 f2 : ℚ)
    (hv : ∀ c ∈ d :: tl, 0 ≤ c.Volume) (h12 : f1 ≤ f2) :
    (vpState (d :: tl) f1).up ≤ (vpState (d :: tl) f2).up ∧
      (vpState (d :: tl) f2).down ≤ (vpState (d :: tl) f1).down := by
  have hnn : ∀ v ∈ histCounts (d :: tl), 0 ≤ v := histCounts_nonneg _ hv
  have hsum : 0 ≤ (histCounts (d :: tl)).sum := List.sum_nonneg hnn
  have ht : (histCounts (d :: tl)).sum * f1 ≤ (histCounts (d :: tl)).sum * f2 :=
    mul_le_mul_of_nonneg_left h12 hsum
  unfold vpState expandVA
  exact expandVAD_target_mono 0 _ _ _ ht _ _

theorem runSignal_cons (d : Candle) (tl : List Candle) (va rr : ℚ) :
    runSignal (d :: tl) va rr =
      signalOf (lastCandle d tl) (vahOf (d :: tl) va) (valOf (d :: tl) va) rr := rfl

theorem signalOf_long_iff (l : Candle) (vah val rr : ℚ) :
    signalOf l vah val rr =
        (.LONG, some l.Low, some (l.Close + (l.Close - l.Low) * rr)) ↔
      (l.Low < val ∧ val < l.Close) := by
  unfold signalOf
  by_cases h1 : l.Low < val ∧ val < l.Close
  · rw [if_pos h1]
    simp [h1]
  · rw [if_neg h1]
    by_cases h2 : vah < l.High ∧ l.Close < vah
    · rw [if_pos h2]
      simp [h1]
    · rw [if_neg h2]
      simp [h1]

theorem signalOf_short_iff (l : Candle) (vah val rr : ℚ) :
    signalOf l vah val rr =
        (.SHORT, some l.High, some (l.Close - (l.High - l.Close) * rr)) ↔
      (¬(l.Low < val ∧ val < l.Close) ∧ (vah < l.High ∧ l.Close < vah)) := by
  unfold signalOf
  by_cases h1 : l.Low < val ∧ val < l.Close
  · rw [if_pos h1]
    simp [h1]
  · rw [if_neg h1]
    by_cases h2 : vah < l.High ∧ l.Close < vah
    · rw [if_pos h2]
      simp [h1, h2]
    · rw [if_neg h2]
      simp [h1, h2]

theorem signalOf_wait_iff (l : Candle) (vah val rr : ℚ) :
    signalOf l vah val rr = (.WAIT, none, none) ↔
      (¬(l.Low < val ∧ val < l.Close) ∧ ¬(vah < l.High ∧ l.Close < vah)) := by
  unfold signalOf
  by_cases h1 : l.Low < val ∧ val < l.Close
  · rw [if_pos h1]
    simp [h1]
  · rw [if_neg h1]
    by_cases h2 : vah < l.High ∧ l.Close < vah
    · rw [if_pos h2]
      simp [h1, h2]
    · rw [if_neg h2]
      simp [h1, h2]

theorem signalOf_kind_long (l : Candle) (vah val rr : ℚ) :
    (signalOf l vah val rr).1 = .LONG ↔ (l.Low < val ∧ val < l.Close) := by
  unfold signalOf
  by_cases h1 : l.Low < val ∧ val < l.Close
  · rw [if_pos h1]
    simp [h1]
  · rw [if_neg h1]
    by_cases h2 : vah < l.High ∧ l.Close < vah
    · rw [if_pos h2]
      simp [h1]
    · rw [if_neg h2]
      simp [h1]

theorem signalOf_kind_short (l : Candle) (vah val rr : ℚ) :
    (signalOf l vah val rr).1 = .SHORT ↔
      (¬(l.Low < val ∧ val < l.Close) ∧ (vah < l.High ∧ l.Close < vah)) := by
  unfold signalOf
  by_cases h1 : l.Low < val ∧ val < l.Close
  · rw [if_pos h1]
    simp [h1]
  · rw [if_neg h1]
    by_cases h2 : vah < l.High ∧ l.Close < vah
    · rw [if_pos h2]
      simp [h1, h2]
    · rw [if_neg h2]
      simp [h1, h2]

/-! Claim theorems. -/

/-- C1: for every non-empty candle window (volumes are nonnegative per
the data model) and every va_fraction strictly between 0 and 1, the
profile returned by calculate_vp satisfies val ≤ poc ≤ vah, where poc,
vah, val are the prices bins[max_idx], bins[up] and bins[down]. -/
theorem c1_val_le_poc_le_vah (d : Candle) (tl : List Candle) (va : ℚ)
    (h0 : 0 < va) (h1 : va < 1) (hv : ∀ c ∈ d :: tl, 0 ≤ c.Volume) :
    valOf (d :: tl) va ≤ pocOf (d :: tl) va ∧
      pocOf (d :: tl) va ≤ vahOf (d :: tl) va := by
  obtain ⟨hpoc, hvah, hval⟩ := calculate_vp_levels d tl va hv
  obtain ⟨hd, hu, _⟩ := vpState_bounds d tl va hv
  have hw := histW_pos d tl
  have hcd : ((vpState (d :: tl) va).down : ℚ) ≤
      ((argmaxIdx (histCounts (d :: tl))) : ℚ) := by exact_mod_cast hd
  have hcu : ((argmaxIdx (histCounts (d :: tl))) : ℚ) ≤
      ((vpState (d :: tl) va).up : ℚ) := by exact_mod_cast hu
  constructor
  · rw [hval, hpoc]
    have := mul_le_mul_of_nonneg_right hcd hw.le
    linarith
  · rw [hpoc, hvah]
    have := mul_le_mul_of_nonneg_right hcu hw.le
    linarith

/-- Witness for C1: the invariant evaluated on a concrete one-candle
window. -/
theorem c1_witness :
    valOf [(⟨1, 3, 1, 2, 10⟩ : Candle)] (7/10) ≤ pocOf [(⟨1, 3, 1, 2, 10⟩ : Candle)] (7/10) ∧
      pocOf [(⟨1, 3, 1, 2, 10⟩ : Candle)] (7/10) ≤ vahOf [(⟨1, 3, 1, 2, 10⟩ : Candle)] (7/10) :=
  c1_val_le_poc_le_vah ⟨1, 3, 1, 2, 10⟩ [] (7/10) (by norm_num) (by norm_num)
    (by intro c hc; fin_cases hc; norm_num)

/-- C6: for a fixed window (hence fixed histogram and POC), a larger
va_fraction never yields a narrower value-area band. -/
theorem c6_va_fraction_mono (d : Candle) (tl : List Candle) (f1 f2 : ℚ)
    (hv : ∀ c ∈ d :: tl, 0 ≤ c.Volume)
    (h0 : 0 < f1) (h12 : f1 < f2) (h2 : f2 < 1) :
    vahOf (d :: tl) f1 - valOf (d :: tl) f1 ≤
      vahOf (d :: tl) f2 - valOf (d :: tl) f2 := by
  obtain ⟨_, hvah1, hval1⟩ := calculate_vp_levels d tl f1 hv
  obtain ⟨_, hvah2, hval2⟩ := calculate_vp_levels d tl f2 hv
  obtain ⟨hu, hdn⟩ := vpState_mono d tl f1 f2 hv h12.le
  have hw := histW_pos d tl
  have hcu : ((vpState (d :: tl) f1).up : ℚ) ≤ ((vpState (d :: tl) f2).up : ℚ) := by
    exact_mod_cast hu
  have hcd : ((vpState (d :: tl) f2).down : ℚ) ≤ ((vpState (d :: tl) f1).down : ℚ) := by
    exact_mod_cast hdn
  have p1 := mul_le_mul_of_nonneg_right hcu hw.le
  have p2 := mul_le_mul_of_nonneg_right hcd hw.le
  rw [hvah1, hval1, hvah2, hval2]
  linarith

/-- Witness for C6 on a concrete two-candle window with fractions 1/4
and 7/10. -/
theorem c6_witness :
    vahOf [(⟨1, 4, 1, 2, 10⟩ : Candle), ⟨2, 5, 2, 3, 10⟩] (1/4) -
        valOf [(⟨1, 4, 1, 2, 10⟩ : Candle), ⟨2, 5, 2, 3, 10⟩] (1/4) ≤
      vahOf [(⟨1, 4, 1, 2, 10⟩ : Candle), ⟨2, 5, 2, 3, 10⟩] (7/10) -
        valOf [(⟨1, 4, 1, 2, 10⟩ : Candle), ⟨2, 5, 2, 3, 10⟩] (7/10) :=
  c6_va_fraction_mono ⟨1, 4, 1, 2, 10⟩ [⟨2, 5, 2, 3, 10⟩] (1/4) (7/10)
    (by intro c hc; fin_cases hc <;> norm_num) (by norm_num) (by norm_num) (by norm_num)

/-- C9: the bin volumes of the histogram built for any non-empty window
sum exactly to the sum of the candle volumes. -/
theorem c9_conservation (d : Candle) (tl : List Candle) (va : ℚ) :
    ∃ vpd : VPData, (calculate_vp (d :: tl) va).1 = some vpd ∧
      vpd.volume.sum = ((d :: tl).map Candle.Volume).sum :=
  ⟨⟨(binsList (d :: tl)).take 120, histCounts (d :: tl)⟩, rfl, histCounts_sum (d :: tl)⟩

/-- C7 counterexample: on the empty window calculate_vp does not fail
with any error; it returns the sentinel tuple (None, 0, 0, 0)
normally. -/
theorem c7_counterexample :
    calculate_vp ([] : List Candle) (7/10) = (none, 0, 0, 0) := rfl

/-- C7 amended: when the input window has zero candles, calculate_vp
returns the sentinel (None, 0, 0, 0) instead of raising an error. -/
theorem c7_amended (va : ℚ) :
    calculate_vp ([] : List Candle) va = (none, 0, 0, 0) := rfl

/-- C8: calculate_vp is total and its only failure output is the exact
sentinel (None, 0, 0, 0); whenever the sentinel is produced, the main
flow emits no LONG/SHORT signal and no stop or target. -/
theorem c8_sentinel (df : List Candle) (va rr : ℚ) :
    ((∃ vpd p vh vl, calculate_vp df va = (some vpd, p, vh, vl)) ∨
      calculate_vp df va = (none, 0, 0, 0)) ∧
    ((calculate_vp df va).1 = none → runSignal df va rr = (.WAIT, none, none)) := by
  match df with
  | [] => exact ⟨Or.inr rfl, fun _ => rfl⟩
  | d :: tl =>
    refine ⟨Or.inl ⟨_, _, _, _, rfl⟩, fun h => ?_⟩
    exact absurd h (by simp [calculate_vp])

/-- Witness for C8: the sentinel case reached on the empty window forces
the WAIT outcome. -/
theorem c8_witness : runSignal ([] : List Candle) (1/2) 2 = (.WAIT, none, none) :=
  (c8_sentinel [] (1/2) 2).2 rfl

set_option maxRecDepth 100000

/-- C2 amended: for every non-empty window, the builder computes the
histogram range from the Close column: price_min = min(Close) and
price_max = max(Close) when the closes differ, each widened by 1/2 when
all closes coincide (the numpy degenerate-range rule); it partitions
[price_min, price_max] into 120 contiguous bins of equal positive width
whose 121 edges run from price_min to price_max, and adds each candle
volume entirely to the bin containing its Close (interior bins
half-open, last bin closed). -/
theorem c2_amended (d : Candle) (tl : List Candle) :
    (listMin ((d :: tl).map Candle.Close) = listMax ((d :: tl).map Candle.Close) →
      histLo (d :: tl) = listMin ((d :: tl).map Candle.Close) - 1/2 ∧
        histHi (d :: tl) = listMax ((d :: tl).map Candle.Close) + 1/2) ∧
    (listMin ((d :: tl).map Candle.Close) ≠ listMax ((d :: tl).map Candle.Close) →
      histLo (d :: tl) = listMin ((d :: tl).map Candle.Close) ∧
        histHi (d :: tl) = listMax ((d :: tl).map Candle.Close)) ∧
    0 < histW (d :: tl) ∧
    (∀ j : ℕ, j ≤ 120 →
      (binsList (d :: tl)).getD j 0 = histLo (d :: tl) + (j : ℚ) * histW (d :: tl)) ∧
    (binsList (d :: tl)).getD 120 0 = histHi (d :: tl) ∧
    (∀ j : ℕ, j < 120 →
      (histCounts (d :: tl)).getD j 0 =
        (((d :: tl).filter fun c =>
            decide (histLo (d :: tl) + (j : ℚ) * histW (d :: tl) ≤ c.Close ∧
              (c.Close < histLo (d :: tl) + ((j : ℚ) + 1) * histW (d :: tl) ∨ j = 119))).map
          Candle.Volume).sum) := by
  refine ⟨?_, ?_, histW_pos d tl, ?_, ?_, ?_⟩
  · intro heq
    constructor
    · unfold histLo
      rw [if_pos heq]
    · unfold histHi
      rw [if_pos heq]
  · intro hne
    constructor
    · unfold histLo
      rw [if_neg hne]
    · unfold histHi
      rw [if_neg hne]
  · intro j hj
    exact binsList_getD _ j (by omega)
  · rw [binsList_getD _ 120 (by norm_num)]
    unfold histW
    push_cast
    ring
  · intro j hj
    rw [histCounts_getD _ j hj]
    have hfil : ((d :: tl).filter fun c => decide (binIdx (d :: tl) c.Close = j)) =
        ((d :: tl).filter fun c =>
          decide (histLo (d :: tl) + (j : ℚ) * histW (d :: tl) ≤ c.Close ∧
            (c.Close < histLo (d :: tl) + ((j : ℚ) + 1) * histW (d :: tl) ∨ j = 119))) := by
      apply List.filter_congr
      intro c hc
      rw [decide_eq_decide]
      exact binIdx_eq_iff (d :: tl) c.Close j hj (histW_pos d tl) (close_bounds _ c hc).1
    rw [hfil]

/-- Witness for C2: on a concrete degenerate one-candle window (all
closes equal), the range is the close widened by 1/2 on each side and
the candle volume lands in the bin containing the close (bin 60); on a
concrete two-candle window with distinct closes, bin 0 holds the volume
of the candle closing at the range minimum. -/
theorem c2_witness :
    histLo [(⟨1, 3, 1, 2, 10⟩ : Candle)] = 3/2 ∧
    histHi [(⟨1, 3, 1, 2, 10⟩ : Candle)] = 5/2 ∧
    (histCounts [(⟨1, 3, 1, 2, 10⟩ : Candle)]).getD 60 0 = 10 ∧
    (histCounts [(⟨1, 4, 1, 2, 10⟩ : Candle), ⟨2, 5, 2, 3, 10⟩]).getD 0 0 = 10 := by
  have h1 := c2_amended ⟨1, 3, 1, 2, 10⟩ []
  have hdeg := h1.1 (by with_unfolding_all decide)
  have hbin60 := h1.2.2.2.2.2 60 (by norm_num)
  have h2 := c2_amended ⟨1, 4, 1, 2, 10⟩ [⟨2, 5, 2, 3, 10⟩]
  have hbin0 := h2.2.2.2.2.2 0 (by norm_num)
  refine ⟨?_, ?_, ?_, ?_⟩
  · rw [hdeg.1]
    with_unfolding_all decide
  · rw [hdeg.2]
    with_unfolding_all decide
  · rw [hbin60]
    with_unfolding_all decide
  · rw [hbin0]
    with_unfolding_all decide

/-- C2 counterexample: on a window whose lows and highs extend past the
closes, the builder range is [min Close, max Close] = [2, 3], not the
claimed [min Low, max High] = [1, 5], and there are 120 bins rather than
bin_count - 1 = 119; the profile prices start at 2 (pocOf = 2 here),
below which no bin exists. -/
theorem c2_counterexample :
    histLo [(⟨1, 4, 1, 2, 10⟩ : Candle), ⟨2, 5, 2, 3, 10⟩] = 2 ∧
    spec_price_min [(⟨1, 4, 1, 2, 10⟩ : Candle), ⟨2, 5, 2, 3, 10⟩] = 1 ∧
    histHi [(⟨1, 4, 1, 2, 10⟩ : Candle), ⟨2, 5, 2, 3, 10⟩] = 3 ∧
    spec_price_max [(⟨1, 4, 1, 2, 10⟩ : Candle), ⟨2, 5, 2, 3, 10⟩] = 5 ∧
    (histCounts [(⟨1, 4, 1, 2, 10⟩ : Candle), ⟨2, 5, 2, 3, 10⟩]).length = 120 ∧
    pocOf [(⟨1, 4, 1, 2, 10⟩ : Candle), ⟨2, 5, 2, 3, 10⟩] (7/10) = 2 := by
  with_unfolding_all decide

/-- C3: on a non-empty window with va_fraction in (0,1) the emitted
signal is the LONG tuple (stop_loss = last.Low, take_profit =
last.Close + (last.Close - last.Low) * rr) exactly when last.Low < val
and last.Close > val; otherwise the SHORT tuple (stop_loss = last.High,
take_profit = last.Close - (last.High - last.Close) * rr) exactly when
last.High > vah and last.Close < vah; otherwise WAIT with no stop or
target.  LONG is evaluated first, so the SHORT case requires the LONG
condition to fail. -/
theorem c3_signal_rule (d : Candle) (tl : List Candle) (va rr : ℚ)
    (h0 : 0 < va) (h1 : va < 1) :
    (runSignal (d :: tl) va rr =
        (.LONG, some (lastCandle d tl).Low,
          some ((lastCandle d tl).Close +
            ((lastCandle d tl).Close - (lastCandle d tl).Low) * rr)) ↔
      ((lastCandle d tl).Low < valOf (d :: tl) va ∧
        valOf (d :: tl) va < (lastCandle d tl).Close)) ∧
    (runSignal (d :: tl) va rr =
        (.SHORT, some (lastCandle d tl).High,
          some ((lastCandle d tl).Close -
            ((lastCandle d tl).High - (lastCandle d tl).Close) * rr)) ↔
      (¬((lastCandle d tl).Low < valOf (d :: tl) va ∧
          valOf (d :: tl) va < (lastCandle d tl).Close) ∧
        (vahOf (d :: tl) va < (lastCandle d tl).High ∧
          (lastCandle d tl).Close < vahOf (d :: tl) va))) ∧
    (runSignal (d :: tl) va rr = (.WAIT, none, none) ↔
      (¬((lastCandle d tl).Low < valOf (d :: tl) va ∧
          valOf (d :: tl) va < (lastCandle d tl).Close) ∧
        ¬(vahOf (d :: tl) va < (lastCandle d tl).High ∧
          (lastCandle d tl).Close < vahOf (d :: tl) va))) := by
  rw [runSignal_cons]
  exact ⟨signalOf_long_iff _ _ _ _, signalOf_short_iff _ _ _ _, signalOf_wait_iff _ _ _ _⟩

/-- Witness for C3: a concrete window whose last candle pierces the
value-area floor and closes back above it yields the LONG signal with
stop 3/2 and target 6. -/
theorem c3_witness :
    runSignal [(⟨1, 4, 1, 2, 10⟩ : Candle), ⟨2, 5, 3/2, 3, 10⟩] (7/10) 2 =
      (.LONG, some (3/2), some 6) := by
  have h := (c3_signal_rule ⟨1, 4, 1, 2, 10⟩ [⟨2, 5, 3/2, 3, 10⟩] (7/10) 2
    (by norm_num) (by norm_num)).1
  have hc := h.mpr (by with_unfolding_all decide)
  rw [hc]
  with_unfolding_all decide

/-- C10: the boundary comparisons of the signal logic are strict: a last
candle that exactly touches VAL (low or close equal to val) cannot fire
LONG, one that exactly touches VAH (high or close equal to vah) cannot
fire SHORT, and when both sides only touch, the result is WAIT with no
stop-loss and no take-profit. -/
theorem c10_touch_wait (d : Candle) (tl : List Candle) (va rr : ℚ) :
    (((lastCandle d tl).Low = valOf (d :: tl) va ∨
        (lastCandle d tl).Close = valOf (d :: tl) va) →
      (runSignal (d :: tl) va rr).1 ≠ .LONG) ∧
    (((lastCandle d tl).High = vahOf (d :: tl) va ∨
        (lastCandle d tl).Close = vahOf (d :: tl) va) →
      (runSignal (d :: tl) va rr).1 ≠ .SHORT) ∧
    (((lastCandle d tl).Low = valOf (d :: tl) va ∨
        (lastCandle d tl).Close = valOf (d :: tl) va) →
      ((lastCandle d tl).High = vahOf (d :: tl) va ∨
        (lastCandle d tl).Close = vahOf (d :: tl) va) →
      runSignal (d :: tl) va rr = (.WAIT, none, none)) := by
  have hnl : ((lastCandle d tl).Low = valOf (d :: tl) va ∨
      (lastCandle d tl).Close = valOf (d :: tl) va) →
      ¬((lastCandle d tl).Low < valOf (d :: tl) va ∧
        valOf (d :: tl) va < (lastCandle d tl).Close) := by
    rintro (h | h) ⟨h1, h2⟩ <;> linarith
  have hns : ((lastCandle d tl).High = vahOf (d :: tl) va ∨
      (lastCandle d tl).Close = vahOf (d :: tl) va) →
      ¬(vahOf (d :: tl) va < (lastCandle d tl).High ∧
        (lastCandle d tl).Close < vahOf (d :: tl) va) := by
    rintro (h | h) ⟨h1, h2⟩ <;> linarith
  refine ⟨?_, ?_, ?_⟩
  · intro ht hk
    rw [runSignal_cons] at hk
    exact hnl ht ((signalOf_kind_long _ _ _ _).mp hk)
  · intro ht hk
    rw [runSignal_cons] at hk
    exact hns ht ((signalOf_kind_short _ _ _ _).mp hk).2
  · intro hta htb
    rw [runSignal_cons]
    exact (signalOf_wait_iff _ _ _ _).mpr ⟨hnl hta, hns htb⟩

/-- Witness for C10: a degenerate one-candle window where the close
equals both computed boundaries only touches them, so the result is WAIT
with no stop or target. -/
theorem c10_witness :
    runSignal [(⟨1, 3, 1, 2, 10⟩ : Candle)] (7/10) 2 = (.WAIT, none, none) :=
  (c10_touch_wait ⟨1, 3, 1, 2, 10⟩ [] (7/10) 2).2.2
    (Or.inr (by with_unfolding_all decide)) (Or.inr (by with_unfolding_all decide))

/-- C4: at a loop step where both neighbour bins are available, the
expansion advances into the side holding the larger volume, and advances
upward when the two volumes are exactly equal; while curr < target the
loop performs exactly this step. -/
theorem c4_step_rule (hist : List ℚ) (t : ℚ) (fuel : ℕ) (s : VAState)
    (hu : s.up + 1 < hist.length) (hd : 0 < s.down) :
    (hist.getD (s.down - 1) 0 < hist.getD (s.up + 1) 0 →
      vaStep hist s = ⟨s.up + 1, s.down, s.curr + hist.getD (s.up + 1) 0⟩) ∧
    (hist.getD (s.up + 1) 0 = hist.getD (s.down - 1) 0 →
      vaStep hist s = ⟨s.up + 1, s.down, s.curr + hist.getD (s.up + 1) 0⟩) ∧
    (hist.getD (s.up + 1) 0 < hist.getD (s.down - 1) 0 →
      vaStep hist s = ⟨s.up, s.down - 1, s.curr + hist.getD (s.down - 1) 0⟩) ∧
    (s.curr < t →
      expandVA hist t (fuel + 1) s = expandVA hist t fuel (vaStep hist s)) := by
  have hcu : candUp 0 hist s = hist.getD (s.up + 1) 0 := by
    unfold candUp
    rw [if_pos (by omega)]
  have hcd : candDown 0 hist s = hist.getD (s.down - 1) 0 := by
    unfold candDown
    rw [if_pos hd]
  refine ⟨?_, ?_, ?_, ?_⟩
  · intro h
    unfold vaStep vaStepD
    rw [if_pos (by rw [hcu, hcd]; exact h.le), hcu]
  · intro h
    unfold vaStep vaStepD
    rw [if_pos (by rw [hcu, hcd]; exact h.ge), hcu]
  · intro h
    unfold vaStep vaStepD
    rw [if_neg (by rw [hcu, hcd]; exact not_le.mpr h), hcd]
  · intro hc
    exact expandVAD_succ_step 0 hist t fuel s hc (Or.inl (by omega))

/-- Witness for C4: with bins [1, 2, 3] and both cursors on the middle
bin, the upper neighbour holds 3 > 1, so the step advances upward and
accumulates the entered volume. -/
theorem c4_witness : vaStep [1, 2, 3] ⟨1, 1, 5⟩ = ⟨2, 1, 8⟩ := by
  have h := (c4_step_rule [1, 2, 3] 0 0 ⟨1, 1, 5⟩ (by with_unfolding_all decide)
    (by with_unfolding_all decide)).1 (by with_unfolding_all decide)
  rw [h]
  with_unfolding_all decide

/-- C5: for a histogram with nonnegative bin volumes and any valid start
bin p, running the expansion loop with fuel equal to the bin count
reaches a terminal state of the while loop (target met, or up at the
last bin and down at 0); supplying more fuel does not change the result
(the loop needs at most bin_count iterations); the value the guarded
reads would return out of bounds is never consulted (no out-of-bounds
indexing); and from the fully exhausted state the loop returns at once
even when the accumulated volume is still below target. -/
theorem c5_termination (hist : List ℚ) (t : ℚ) (p : ℕ)
    (hv : ∀ v ∈ hist, 0 ≤ v) (hp : p < hist.length) :
    (t ≤ (expandVA hist t hist.length ⟨p, p, hist.getD p 0⟩).curr ∨
      (hist.length - 1 ≤ (expandVA hist t hist.length ⟨p, p, hist.getD p 0⟩).up ∧
        (expandVA hist t hist.length ⟨p, p, hist.getD p 0⟩).down = 0)) ∧
    (∀ k : ℕ, expandVA hist t (hist.length + k) ⟨p, p, hist.getD p 0⟩ =
      expandVA hist t hist.length ⟨p, p, hist.getD p 0⟩) ∧
    (∀ dflt : ℚ, expandVAD dflt hist t hist.length ⟨p, p, hist.getD p 0⟩ =
      expandVA hist t hist.length ⟨p, p, hist.getD p 0⟩) ∧
    (∀ (c : ℚ) (fuel : ℕ),
      expandVA hist t fuel ⟨hist.length - 1, 0, c⟩ = ⟨hist.length - 1, 0, c⟩) := by
  have hup : (⟨p, p, hist.getD p 0⟩ : VAState).up ≤ hist.length - 1 := by
    show p ≤ hist.length - 1
    omega
  refine ⟨?_, ?_, ?_, ?_⟩
  · exact expandVAD_terminal 0 hist t hv (le_refl 0) hist.length _ hup
      (by show hist.length - 1 - p + p < hist.length; omega)
  · intro k
    exact expandVAD_stable 0 hist t hv (le_refl 0) (hist.length + k) hist.length _ hup
      (by show hist.length - 1 - p + p < hist.length + k; omega)
      (by show hist.length - 1 - p + p < hist.length; omega)
  · intro dflt
    exact expandVAD_default dflt 0 hist t hist.length _ (by show p < hist.length; exact hp)
  · intro c fuel
    match fuel with
    | 0 => rfl
    | n + 1 =>
      by_cases hc : (⟨hist.length - 1, 0, c⟩ : VAState).curr < t
      · exact expandVAD_succ_break 0 hist t n _ hc
          (by show ¬(hist.length - 1 < hist.length - 1 ∨ 0 < 0); omega)
      · exact expandVAD_succ_done 0 hist t n _ hc

/-- Witness for C5 on the concrete histogram [1, 2, 3] with start bin 1:
the loop state after bin-count iterations is terminal, and the loop
started at the fully exhausted state returns it unchanged. -/
theorem c5_witness :
    ((100 : ℚ) ≤ (expandVA [1, 2, 3] 100 3 ⟨1, 1, 2⟩).curr ∨
      (2 ≤ (expandVA [1, 2, 3] 100 3 ⟨1, 1, 2⟩).up ∧
        (expandVA [1, 2, 3] 100 3 ⟨1, 1, 2⟩).down = 0)) ∧
    expandVA [1, 2, 3] 100 7 ⟨2, 0, 5⟩ = ⟨2, 0, 5⟩ := by
  have h := c5_termination [1, 2, 3] 100 1
    (by intro v hv; fin_cases hv <;> norm_num) (by norm_num)
  exact ⟨h.1, h.2.2.2 5 7⟩
